import Mathlib

/-!
# rawcdp: a client-side multiplexer for the Chrome DevTools Protocol

A shallow embedding of `client.go` and `batch.go` of maxbet1507/rawcdp.

* Go `int64` values are integers wrapped into the signed 64-bit range.
* A Go map is an association list read through `mapGet`, `mapSet`, `mapDelete`.
* A channel is a handle into a heap of channel states (closed flag, capacity, queue).
* `encoding/json` and the websocket connection are outside the repository; the codec is a
  parameter and the connection is a script of receive results.
* A method that takes the client lock runs as one atomic state transition.
* A blocking method is split at its suspension point: `Client.Call_begin` runs up to the
  `select`, `Client.Call_wake` runs from the `select` to the end of the deferred calls.
-/

set_option autoImplicit false
set_option linter.dupNamespace false

namespace Rawcdp

/-! ## Machine integers and `strconv.FormatInt` -/

/-- Wrap an integer into the signed 64-bit range, as Go `int64` arithmetic does. -/
def wrapInt64 (x : Int) : Int := (x + 2 ^ 63) % 2 ^ 64 - 2 ^ 63

/-- The character of one decimal digit. -/
def digitChar (d : Nat) : Char := Char.ofNat (48 + d)

/-- The digit loop of `strconv.FormatInt` in base 10: the least significant digit is produced
first and put in front of the digits produced so far. -/
def formatBits : Nat → Nat → List Char → List Char
  | 0, _, acc => acc
  | fuel + 1, u, acc =>
    if u < 10 then digitChar u :: acc
    else formatBits fuel (u / 10) (digitChar (u % 10) :: acc)

/-- Go `strconv.FormatInt(i, 10)`: a minus sign for a negative number, then the digits of the
magnitude. -/
def FormatInt (i : Int) : String :=
  if i < 0 then String.mk ('-' :: formatBits (i.natAbs + 1) i.natAbs [])
  else String.mk (formatBits (i.natAbs + 1) i.natAbs [])

/-- The value a string of decimal digits denotes (used to state what a decimal rendering is). -/
def decimalValue (ds : List Char) : Nat :=
  ds.foldl (fun acc c => acc * 10 + (c.toNat - 48)) 0

/-! ## `Error` (client.go, lines 13-24) -/

/-- The decoded error object of a cdp message. -/
structure Error where
  Code : Int
  Message : String
deriving DecidableEq, Repr

/-- Go `func (s Error) Error() string`. -/
def Error.Error (s : Error) : String :=
  if s.Message ≠ "" then s.Message else FormatInt s.Code

/-! ## Go maps as association lists -/

/-- Go `v, ok := m[k]`. -/
def mapGet {κ ν : Type} [DecidableEq κ] : List (κ × ν) → κ → Option ν
  | [], _ => none
  | (k', v) :: rest, k => if k' = k then some v else mapGet rest k

/-- Go `delete(m, k)`. -/
def mapDelete {κ ν : Type} [DecidableEq κ] (m : List (κ × ν)) (k : κ) : List (κ × ν) :=
  m.filter (fun e => decide (e.1 ≠ k))

/-- Go `m[k] = v`. -/
def mapSet {κ ν : Type} [DecidableEq κ] (m : List (κ × ν)) (k : κ) (v : ν) : List (κ × ν) :=
  (k, v) :: mapDelete m k

/-! ## Channels -/

/-- A handle of an allocated (non-nil) channel. -/
abbrev Chan := Nat

/-- The state of one channel. -/
structure ChanState (Bytes : Type) where
  closed : Bool
  cap : Nat
  buf : List Bytes

/-- The channels of the program. -/
abbrev Heap (Bytes : Type) := Chan → ChanState Bytes

/-- A run-time panic of the Go runtime. -/
inductive Fault where
  | closeOfClosedChannel
  | sendOnClosedChannel
deriving DecidableEq, Repr

/-- How a piece of code ends: it returns, it waits at a blocking operation, or it panics. -/
inductive Outcome (σ α : Type) where
  | returned (a : α) (w : σ)
  | blocked (w : σ)
  | panicked (f : Fault) (w : σ)

/-- The state in which a piece of code ends. -/
def Outcome.world {σ α : Type} : Outcome σ α → σ
  | .returned _ w => w
  | .blocked w => w
  | .panicked _ w => w

/-- Go `close(ch)`: closing a closed channel panics. -/
def chanClose {Bytes : Type} (h : Heap Bytes) (ch : Chan) : Except Fault (Heap Bytes) :=
  if (h ch).closed then .error .closeOfClosedChannel
  else .ok (Function.update h ch { h ch with closed := true })

/-- The result of attempting `ch <- v`. -/
inductive SendResult (Bytes : Type) where
  | sent (h : Heap Bytes)
  | full
  | closed

/-- Go `ch <- v`: panics on a closed channel, waits while the queue is full. -/
def chanSend {Bytes : Type} (h : Heap Bytes) (ch : Chan) (v : Bytes) : SendResult Bytes :=
  if (h ch).closed then .closed
  else if (h ch).cap ≤ (h ch).buf.length then .full
  else .sent (Function.update h ch { h ch with buf := (h ch).buf ++ [v] })

/-- Close the channels of a list one after the other; stops at the first panic. -/
def closeAll {Bytes : Type} : Heap Bytes → List Chan → Heap Bytes × Option Fault
  | h, [] => (h, none)
  | h, ch :: rest =>
    match chanClose h ch with
    | .error f => (h, some f)
    | .ok h' => closeAll h' rest

/-! ## Errors, codec and connection -/

/-- The Go `error` values the client returns. -/
inductive GoError where
  | remote (e : Error)
  | channelClosed
  | context (msg : String)
  | marshal (msg : String)
  | unmarshal (msg : String)
  | transport (msg : String)
deriving DecidableEq, Repr

/-- The struct `proc` decodes every inbound frame into. -/
structure Envelope where
  ID : Option Int
  Method : Option String
deriving DecidableEq, Repr

/-- The struct `Call` decodes its response into. -/
structure CallResponse (Value : Type) where
  Result : Option Value
  Error : Option Error

/-- The three uses the client makes of `encoding/json`. -/
structure Codec (Bytes Value : Type) where
  marshalRequest : Int → String → Option Value → Except String Bytes
  unmarshalEnvelope : Bytes → Except String Envelope
  unmarshalResponse : Bytes → Value → Except String (CallResponse Value)

/-- The websocket connection: the results of the successive `ReadMessage` calls still to
come, the frames written, and whether it was closed. -/
structure Conn (Bytes : Type) where
  incoming : List (Except String Bytes)
  outgoing : List Bytes
  closed : Bool

/-- Go `conn.WriteMessage`. -/
def Conn.WriteMessage {Bytes : Type} (c : Conn Bytes) (b : Bytes) : Option GoError × Conn Bytes :=
  if c.closed then (some (.transport "use of closed network connection"), c)
  else (none, { c with outgoing := c.outgoing ++ [b] })

/-- Go `conn.Close`. -/
def Conn.Close {Bytes : Type} (c : Conn Bytes) : Option GoError × Conn Bytes :=
  if c.closed then (some (.transport "use of closed network connection"), c)
  else (none, { c with closed := true })

/-! ## `Client` (client.go) -/

/-- The fields of `Client`; the lock is implicit in the atomicity of the transitions. -/
structure Client (Bytes : Type) where
  id : Int
  methods : List (Int × Chan)
  listeners : List (String × Chan)
  conn : Conn Bytes

/-- The client together with the channel heap, the channel allocator and what the tracer
was given. -/
structure World (Bytes : Type) where
  client : Client Bytes
  heap : Heap Bytes
  nextChan : Chan
  traced : List (Bytes ⊕ GoError)

/-- The closure inside `prepareMethod`: starting from the counter, step forward while the
counter is a key of the table. The fuel bounds the number of increments. -/
def scanFree (methods : List (Int × Chan)) : Nat → Int → Option Int
  | 0, id => if (mapGet methods id).isNone then some id else none
  | fuel + 1, id =>
    if (mapGet methods id).isNone then some id
    else scanFree methods fuel (wrapInt64 (id + 1))

/-- Go `func (s *Client) prepareMethod(ch) int64`; `none` when the scan needs more fuel. -/
def Client.prepareMethod {Bytes : Type} (fuel : Nat) (s : Client Bytes) (ch : Chan) :
    Option (Int × Client Bytes) :=
  match scanFree s.methods fuel s.id with
  | none => none
  | some id => some (id, { s with id := wrapInt64 (id + 1), methods := mapSet s.methods id ch })

/-- Go `func (s *Client) cleanupMethod(id) chan`; `none` is the nil channel. -/
def Client.cleanupMethod {Bytes : Type} (s : Client Bytes) (id : Int) :
    Option Chan × Client Bytes :=
  match mapGet s.methods id with
  | some ch => (some ch, { s with methods := mapDelete s.methods id })
  | none => (none, s)

/-- Go `func (s *Client) getListener(method) channels.Hub`; `none` is the nil hub. -/
def Client.getListener {Bytes : Type} (s : Client Bytes) (method : String) : Option Chan :=
  mapGet s.listeners method

/-- The decision of `Call` once a frame was received from its channel (lines 96-113). -/
def callResult {Bytes Value : Type} (codec : Codec Bytes Value) (result : Option Value)
    (resbin : Bytes) : Option GoError :=
  match result with
  | none => none
  | some target =>
    match codec.unmarshalResponse resbin target with
    | .error e => some (.unmarshal e)
    | .ok res =>
      match res.Error with
      | some e => some (.remote e)
      | none => none

/-- The deferred calls of `Call`, in the order Go runs them: `s.cleanupMethod(id)`, then
`close(ch)`. -/
def callDefers {Bytes : Type} (w : World Bytes) (id : Int) (ch : Chan) (ret : Option GoError) :
    Outcome (World Bytes) (Option GoError) :=
  let w1 := { w with client := (w.client.cleanupMethod id).2 }
  match chanClose w1.heap ch with
  | .error f => .panicked f w1
  | .ok h => .returned ret { w1 with heap := h }

/-- What `Call` is suspended on: its id and its channel. -/
structure Pending where
  id : Int
  ch : Chan
deriving DecidableEq, Repr

/-- Go `Client.Call` up to its `select` (lines 67-89): `inl` when it returned before waiting,
`inr` when it now waits. -/
def Client.Call_begin {Bytes Value : Type} (codec : Codec Bytes Value) (fuel : Nat)
    (w : World Bytes) (method : String) (params : Option Value) :
    Option (Outcome (World Bytes) (Option GoError) ⊕ (Pending × World Bytes)) :=
  let ch := w.nextChan
  let h := Function.update w.heap ch { closed := false, cap := 1, buf := [] }
  match w.client.prepareMethod fuel ch with
  | none => none
  | some (id, c) =>
    let w1 : World Bytes := { w with client := c, heap := h, nextChan := ch + 1 }
    match codec.marshalRequest id method params with
    | .error e => some (.inl (callDefers w1 id ch (some (.marshal e))))
    | .ok reqbin =>
      match w1.client.conn.WriteMessage reqbin with
      | (some err, _) => some (.inl (callDefers w1 id ch (some err)))
      | (none, conn) =>
        some (.inr (⟨id, ch⟩, { w1 with client := { w1.client with conn := conn } }))

/-- The case of the `select` of `Call` that is taken. -/
inductive Wake where
  | recv
  | ctxDone (msg : String)
deriving DecidableEq, Repr

/-- Go `Client.Call` from its `select` to its end (lines 91-118 and the deferred calls). Taking
the receive case while the channel is open and empty leaves the call waiting. -/
def Client.Call_wake {Bytes Value : Type} (codec : Codec Bytes Value) (w : World Bytes)
    (p : Pending) (result : Option Value) (wake : Wake) :
    Outcome (World Bytes) (Option GoError) :=
  match wake with
  | .ctxDone msg => callDefers w p.id p.ch (some (.context msg))
  | .recv =>
    match (w.heap p.ch).buf with
    | resbin :: rest =>
      callDefers { w with heap := Function.update w.heap p.ch { w.heap p.ch with buf := rest } }
        p.id p.ch (callResult codec result resbin)
    | [] =>
      if (w.heap p.ch).closed then callDefers w p.id p.ch (some .channelClosed)
      else .blocked w

/-- Go `func (s *Client) Close() error`. -/
def Client.Close {Bytes : Type} (w : World Bytes) : Outcome (World Bytes) (Option GoError) :=
  match closeAll w.heap (w.client.methods.map Prod.snd) with
  | (h1, some f) => .panicked f { w with heap := h1 }
  | (h1, none) =>
    let c1 := { w.client with methods := [] }
    match closeAll h1 (c1.listeners.map Prod.snd) with
    | (h2, some f) => .panicked f { w with heap := h2, client := c1 }
    | (h2, none) =>
      let r := c1.conn.Close
      .returned r.1 { w with heap := h2, client := { c1 with listeners := [], conn := r.2 } }

/-- One dispatch of `proc` (lines 213-221) on a decoded frame: `returned` means the loop
goes on. -/
def procDispatch {Bytes : Type} (w : World Bytes) (resbin : Bytes) (res : Envelope) :
    Outcome (World Bytes) Unit :=
  match res.ID with
  | some id =>
    let r := w.client.cleanupMethod id
    let w1 := { w with client := r.2 }
    match r.1 with
    | some ch =>
      match chanSend w1.heap ch resbin with
      | .sent h => .returned () { w1 with heap := h }
      | .full => .blocked w1
      | .closed => .panicked .sendOnClosedChannel w1
    | none => .returned () w1
  | none =>
    match res.Method with
    | some method =>
      match w.client.getListener method with
      | some hub =>
        match chanSend w.heap hub resbin with
        | .sent h => .returned () { w with heap := h }
        | .full => .blocked w
        | .closed => .panicked .sendOnClosedChannel w
      | none => .returned () w
    | none => .returned () w

/-- The loop of `proc` over the receive results still to come; it waits when they are used
up. -/
def procLoop {Bytes Value : Type} (codec : Codec Bytes Value) :
    List (Except String Bytes) → World Bytes → Outcome (World Bytes) GoError
  | [], w => .blocked w
  | r :: rest, w =>
    let w0 := { w with client := { w.client with conn := { w.client.conn with incoming := rest } } }
    match r with
    | .error e => .returned (.transport e) w0
    | .ok resbin =>
      let w1 := { w0 with traced := w0.traced ++ [.inl resbin] }
      match codec.unmarshalEnvelope resbin with
      | .error e => .returned (.unmarshal e) w1
      | .ok res =>
        match procDispatch w1 resbin res with
        | .returned _ w2 => procLoop codec rest w2
        | .blocked w2 => .blocked w2
        | .panicked f w2 => .panicked f w2

/-- Go `func (s *Client) proc(tracer) error`. -/
def Client.proc {Bytes Value : Type} (codec : Codec Bytes Value) (w : World Bytes) :
    Outcome (World Bytes) GoError :=
  if w.client.conn.closed then
    .returned (.transport "use of closed network connection") w
  else procLoop codec w.client.conn.incoming w

/-- Go `func NewClient(conn, tracer) *Client`, before its goroutine runs. -/
def NewClient {Bytes : Type} (conn : Conn Bytes) : World Bytes :=
  { client := { id := 0, methods := [], listeners := [], conn := conn }
    heap := fun _ => { closed := false, cap := 0, buf := [] }
    nextChan := 0
    traced := [] }

/-- The goroutine `NewClient` starts (lines 237-241): run `proc`, hand its error to the
tracer. -/
def readerTask {Bytes Value : Type} (codec : Codec Bytes Value) (w : World Bytes) :
    Outcome (World Bytes) Unit :=
  match Client.proc codec w with
  | .returned err w1 => .returned () { w1 with traced := w1.traced ++ [.inr err] }
  | .blocked w1 => .blocked w1
  | .panicked f w1 => .panicked f w1

/-! ## `Batch` (batch.go) -/

/-- An operation `Batch.Run` performs on the client. A slot names the pair of variables
`listener, canceler` one `Batch.Listen` declaration owns. -/
inductive Op (Value : Type) where
  | Listen (method : String) (slot : Nat)
  | Call (method : String) (params result : Option Value)
  | listener (slot : Nat) (params : Option Value)
  | canceler (slot : Nat)
deriving DecidableEq, Repr

/-- The closure `Batch.Listen` appends to `prepares`: `listener, canceler = client.Listen(method)`. -/
structure PrepareFn where
  slot : Nat
  method : String
deriving DecidableEq, Repr

/-- The closures appended to `runs`: by `Batch.Call`, `client.Call(ctx, method, params, result)`;
by `Batch.Listen`, `listener(ctx, params)`. -/
inductive RunFn (Value : Type) where
  | call (method : String) (params result : Option Value)
  | await (slot : Nat) (params : Option Value)
deriving DecidableEq, Repr

/-- The closure `Batch.Listen` appends to `cleanups`: `canceler()`. -/
structure CleanupFn where
  slot : Nat
deriving DecidableEq, Repr

/-- The struct `Batch`. -/
structure Batch (Value : Type) where
  prepares : List PrepareFn
  cleanups : List CleanupFn
  runs : List (RunFn Value)

/-- The zero value `Batch{}`. -/
def Batch.empty {Value : Type} : Batch Value := { prepares := [], cleanups := [], runs := [] }

/-- Go `func (s *Batch) Call(method, params, result)`. -/
def Batch.Call {Value : Type} (s : Batch Value) (method : String) (params result : Option Value) :
    Batch Value :=
  { s with runs := s.runs ++ [.call method params result] }

/-- Go `func (s *Batch) Listen(method, params)`; the fresh pair of variables is the slot numbered
by the listens declared so far. -/
def Batch.Listen {Value : Type} (s : Batch Value) (method : String) (params : Option Value) :
    Batch Value :=
  let slot := s.prepares.length
  { prepares := s.prepares ++ [{ slot := slot, method := method }]
    runs := s.runs ++ [.await slot params]
    cleanups := s.cleanups ++ [{ slot := slot }] }

/-- The client operation a prepare closure performs. -/
def PrepareFn.op {Value : Type} (fn : PrepareFn) : Op Value := .Listen fn.method fn.slot

/-- The client operation a run closure performs. -/
def RunFn.op {Value : Type} : RunFn Value → Op Value
  | .call method params result => .Call method params result
  | .await slot params => .listener slot params

/-- The client operation a cleanup closure performs. -/
def CleanupFn.op {Value : Type} (fn : CleanupFn) : Op Value := .canceler fn.slot

/-- The environment of a run: the error value returned by the client operation performed
last in a trace (`none` is nil). It may depend on everything performed before. -/
abbrev Env (Value : Type) := List (Op Value) → Option GoError

/-- The loop over `s.runs` (lines 48-53): the trace so far is extended by each closure run;
the first error ends the loop. -/
def runLoop {Value : Type} (env : Env Value) :
    List (RunFn Value) → List (Op Value) → List (Op Value) × Option GoError
  | [], tr => (tr, none)
  | fn :: rest, tr =>
    match env (tr ++ [fn.op]) with
    | some err => (tr ++ [fn.op], some err)
    | none => runLoop env rest (tr ++ [fn.op])

/-- Go `func (s *Batch) Run(ctx, client) error`: the trace of client operations and the error
returned. The deferred loop over `s.cleanups` runs after the loop over `s.runs` ended. -/
def Batch.Run {Value : Type} (env : Env Value) (s : Batch Value) :
    List (Op Value) × Option GoError :=
  let r := runLoop env s.runs (s.prepares.map PrepareFn.op)
  (r.1 ++ s.cleanups.map CleanupFn.op, r.2)

/-- A declaration made on a batch. -/
inductive Decl (Value : Type) where
  | Call (method : String) (params result : Option Value)
  | Listen (method : String) (params : Option Value)
deriving DecidableEq, Repr

/-- Apply one declaration. -/
def Batch.declare {Value : Type} (s : Batch Value) : Decl Value → Batch Value
  | .Call method params result => s.Call method params result
  | .Listen method params => s.Listen method params

/-- The batch a sequence of declarations builds from `Batch{}`. -/
def Batch.build {Value : Type} (ds : List (Decl Value)) : Batch Value :=
  ds.foldl Batch.declare Batch.empty

/-- The subscriptions a sequence of declarations asks for, in declaration order; the
listens are numbered from `n`. -/
def declaredListens {Value : Type} : Nat → List (Decl Value) → List (Op Value)
  | _, [] => []
  | n, .Call _ _ _ :: ds => declaredListens n ds
  | n, .Listen method _ :: ds => .Listen method n :: declaredListens (n + 1) ds

/-- The run steps a sequence of declarations asks for, in declaration order. -/
def declaredSteps {Value : Type} : Nat → List (Decl Value) → List (Op Value)
  | _, [] => []
  | n, .Call method params result :: ds => .Call method params result :: declaredSteps n ds
  | n, .Listen _ params :: ds => .listener n params :: declaredSteps (n + 1) ds

/-- The number of listen declarations. -/
def countListens {Value : Type} : List (Decl Value) → Nat
  | [] => 0
  | .Call _ _ _ :: ds => countListens ds
  | .Listen _ _ :: ds => countListens ds + 1

/-- Whether an operation is a `Client.Listen`. -/
def Op.isListen {Value : Type} : Op Value → Bool
  | .Listen _ _ => true
  | _ => false

/-- Whether an operation is a run step: a `Client.Call` or the call of a listener. -/
def Op.isStep {Value : Type} : Op Value → Bool
  | .Call _ _ _ => true
  | .listener _ _ => true
  | _ => false

/-- Whether an operation is the call of a canceler. -/
def Op.isCanceler {Value : Type} : Op Value → Bool
  | .canceler _ => true
  | _ => false

/-! ## A codec for examples

Frames are already decoded messages; `none` is text that is not JSON. -/

/-- A decoded frame. -/
structure Msg where
  id : Option Int
  method : Option String
  result : Option Nat
  error : Option Error
deriving DecidableEq, Repr

/-- A codec over decoded frames. -/
def msgCodec : Codec (Option Msg) Nat where
  marshalRequest := fun id method _ =>
    .ok (some { id := some id, method := some method, result := none, error := none })
  unmarshalEnvelope := fun b =>
    match b with
    | none => .error "invalid character"
    | some m => .ok { ID := m.id, Method := m.method }
  unmarshalResponse := fun b _ =>
    match b with
    | none => .error "invalid character"
    | some m => .ok { Result := m.result, Error := m.error }

/-- A connection on which nothing was written yet, with the receive results to come. -/
def scriptConn (script : List (Except String (Option Msg))) : Conn (Option Msg) :=
  { incoming := script, outgoing := [], closed := false }

/-- The call that waits after `NewClient` and one `Call`: id 0 on channel 0. -/
def firstCall : Pending := { id := 0, ch := 0 }

/-- The world after `NewClient` and one `Call` of `Page.enable` that now waits. -/
def oneCallWaiting (script : List (Except String (Option Msg))) : World (Option Msg) :=
  { client :=
      { id := wrapInt64 (0 + 1)
        methods := [(0, 0)]
        listeners := []
        conn :=
          { incoming := script
            outgoing := [some { id := some 0, method := some "Page.enable", result := none,
                                error := none }]
            closed := false } }
    heap := Function.update (NewClient (scriptConn script)).heap 0
      { closed := false, cap := 1, buf := [] }
    nextChan := 1
    traced := [] }

/-- A response frame for id 0 that carries the error object with code 7 and message x. -/
def errorFrame : Option Msg :=
  some { id := some 0, method := none, result := none, error := some { Code := 7, Message := "x" } }

/-- The world once the reader task has received `errorFrame` for the waiting call 0 and now
waits for the next frame. -/
def errorDelivered : World (Option Msg) :=
  (Client.proc msgCodec (oneCallWaiting [.ok errorFrame])).world

/-! # Theorems -/

/-! ## Decimal rendering -/

theorem digitChar_isDigit (d : Nat) (h : d < 10) : (digitChar d).isDigit = true := by
  interval_cases d <;> decide

theorem digitChar_toNat (d : Nat) (h : d < 10) : (digitChar d).toNat - 48 = d := by
  interval_cases d <;> decide

theorem digitChar_ne_zero (d : Nat) (h : d < 10) (h0 : d ≠ 0) : digitChar d ≠ '0' := by
  interval_cases d <;> first | exact absurd rfl h0 | decide

theorem decimalValue_snoc (ds : List Char) (c : Char) :
    decimalValue (ds ++ [c]) = decimalValue ds * 10 + (c.toNat - 48) := by
  simp [decimalValue, List.foldl_append]

/-- The digit loop, given fuel above the number, puts in front of the accumulator a non-empty
string of digits without a superfluous leading zero whose value is the number. -/
theorem formatBits_spec : ∀ (fuel u : Nat) (acc : List Char), u < fuel →
    ∃ ds : List Char, formatBits fuel u acc = ds ++ acc ∧ ds ≠ [] ∧
      (∀ c ∈ ds, c.isDigit = true) ∧ decimalValue ds = u ∧
      (ds.head? = some '0' → ds = ['0']) := by
  intro fuel
  induction fuel with
  | zero => intro u acc h; omega
  | succ fuel ih =>
    intro u acc h
    by_cases hu : u < 10
    · refine ⟨[digitChar u], by simp [formatBits, hu], by simp, ?_, ?_, ?_⟩
      · intro c hc
        simp only [List.mem_singleton] at hc
        subst hc
        exact digitChar_isDigit u hu
      · simp [decimalValue, digitChar_toNat u hu]
      · intro hh
        simp only [List.head?_cons, Option.some.injEq] at hh
        rw [hh]
    · have hlt : u / 10 < fuel := by omega
      obtain ⟨ds, hds, hne, hdig, hval, hhead⟩ := ih (u / 10) (digitChar (u % 10) :: acc) hlt
      have hmod : u % 10 < 10 := Nat.mod_lt _ (by decide)
      refine ⟨ds ++ [digitChar (u % 10)], ?_, by simp, ?_, ?_, ?_⟩
      · simp [formatBits, hu, hds]
      · intro c hc
        rcases List.mem_append.mp hc with hc | hc
        · exact hdig c hc
        · simp only [List.mem_singleton] at hc
          subst hc
          exact digitChar_isDigit _ hmod
      · rw [decimalValue_snoc, hval, digitChar_toNat _ hmod]
        omega
      · intro hh
        exfalso
        cases ds with
        | nil => exact hne rfl
        | cons d ds' =>
          simp only [List.cons_append, List.head?_cons, Option.some.injEq] at hh
          have h1 := hhead (by simp [hh])
          rw [h1] at hval
          simp [decimalValue] at hval
          omega

/-- C10: `Error()` returns the message when it is non-empty; otherwise it returns the decimal
rendering of the code: a minus sign exactly when the code is negative, followed by a non-empty
string of decimal digits, without a superfluous leading zero, whose value is the magnitude of
the code. The code 7 with message x displays x and with no message displays 7. -/
theorem Error_Error_display (s : Error) :
    (s.Message ≠ "" → s.Error = s.Message) ∧
    (s.Message = "" → ∃ ds : List Char,
      s.Error = String.mk ((if s.Code < 0 then ['-'] else []) ++ ds) ∧ ds ≠ [] ∧
      (∀ c ∈ ds, c.isDigit = true) ∧ decimalValue ds = s.Code.natAbs ∧
      (ds.head? = some '0' → ds = ['0'])) ∧
    Error.Error { Code := 7, Message := "x" } = "x" ∧
    Error.Error { Code := 7, Message := "" } = "7" ∧
    Error.Error { Code := -32601, Message := "" } = "-32601" := by
  refine ⟨?_, ?_, by decide, by decide, by decide⟩
  · intro h
    simp [Error.Error, h]
  · intro h
    obtain ⟨ds, hds, hne, hdig, hval, hhead⟩ :=
      formatBits_spec (s.Code.natAbs + 1) s.Code.natAbs [] (Nat.lt_succ_self _)
    refine ⟨ds, ?_, hne, hdig, hval, hhead⟩
    simp only [List.append_nil] at hds
    by_cases hneg : s.Code < 0
    · simp [Error.Error, h, FormatInt, hneg, hds]
    · simp [Error.Error, h, FormatInt, hneg, hds]

/-! ## The pending-call table -/

theorem mapGet_eq_none_iff {ν : Type} (m : List (Int × ν)) (k : Int) :
    mapGet m k = none ↔ k ∉ m.map Prod.fst := by
  induction m with
  | nil => simp [mapGet]
  | cons e rest ih =>
    obtain ⟨k', v⟩ := e
    by_cases h : k' = k
    · simp [mapGet, h]
    · simp only [mapGet, h, if_false, ih, List.map_cons, List.mem_cons, not_or]
      exact ⟨fun hh => ⟨fun e => h e.symm, hh⟩, fun hh => hh.2⟩

theorem mapDelete_of_get_none {ν : Type} (m : List (Int × ν)) (k : Int)
    (h : mapGet m k = none) : mapDelete m k = m := by
  rw [mapGet_eq_none_iff] at h
  unfold mapDelete
  rw [List.filter_eq_self]
  intro e he
  have : e.1 ≠ k := fun hh => h (hh ▸ List.mem_map_of_mem Prod.fst he)
  simpa using this

theorem mapGet_mapDelete {ν : Type} (m : List (Int × ν)) (k j : Int) :
    mapGet (mapDelete m k) j = if j = k then none else mapGet m j := by
  induction m with
  | nil => simp [mapGet, mapDelete]
  | cons e rest ih =>
    obtain ⟨k', v⟩ := e
    unfold mapDelete at ih ⊢
    by_cases h : k' = k
    · subst h
      by_cases hj : j = k'
      · subst hj
        simpa [List.filter_cons] using ih
      · have hj' : ¬ k' = j := fun e => hj e.symm
        simpa [List.filter_cons, mapGet, hj, hj'] using ih
    · by_cases hj : j = k
      · subst hj
        simp only [List.filter_cons, ne_eq, h, not_false_eq_true, decide_True, if_true, mapGet,
          if_false]
        simpa using ih
      · simp only [List.filter_cons, ne_eq, h, not_false_eq_true, decide_True, if_true, mapGet]
        by_cases hkj : k' = j
        · simp [hkj, hj]
        · simpa [hkj, hj] using ih

/-- The id reached after `k` increments of the counter. -/
theorem iterate_wrap_modEq (id : Int) (k : Nat) :
    ((fun x => wrapInt64 (x + 1))^[k] id) ≡ id + k [ZMOD 2 ^ 64] := by
  induction k with
  | zero => simp [Int.ModEq]
  | succ k ih =>
    rw [Function.iterate_succ_apply']
    have h1 : wrapInt64 ((fun x => wrapInt64 (x + 1))^[k] id + 1) ≡
        (fun x => wrapInt64 (x + 1))^[k] id + 1 [ZMOD 2 ^ 64] := by
      unfold wrapInt64 Int.ModEq
      omega
    refine h1.trans ?_
    have h2 := ih.add_right 1
    refine h2.trans ?_
    push_cast
    rw [add_assoc]

theorem iterate_wrap_injOn (id : Int) (n : Nat) (hn : n < 2 ^ 64) :
    Set.InjOn (fun k : Nat => (fun x => wrapInt64 (x + 1))^[k] id) (Finset.range (n + 1) : Set Nat) := by
  intro a ha b hb hab
  simp only [Finset.coe_range, Set.mem_Iio] at ha hb
  have h1 := iterate_wrap_modEq id a
  have h2 := iterate_wrap_modEq id b
  simp only at hab
  rw [hab] at h1
  have h3 : (id + a : Int) ≡ id + b [ZMOD 2 ^ 64] := h1.symm.trans h2
  unfold Int.ModEq at h3
  omega

theorem scanFree_none (m : List (Int × Chan)) : ∀ (fuel : Nat) (id : Int),
    scanFree m fuel id = none →
    ∀ k, k ≤ fuel → (fun x => wrapInt64 (x + 1))^[k] id ∈ m.map Prod.fst := by
  intro fuel
  induction fuel with
  | zero =>
    intro id h k hk
    have hk0 : k = 0 := by omega
    subst hk0
    by_contra hc
    rw [← mapGet_eq_none_iff] at hc
    simp only [Function.iterate_zero, id_eq] at hc
    simp [scanFree, hc] at h
  | succ fuel ih =>
    intro id h k hk
    by_cases hg : mapGet m id = none
    · simp [scanFree, hg] at h
    · have hs : scanFree m fuel (wrapInt64 (id + 1)) = none := by
        have hg' : (mapGet m id).isNone = false := by
          cases hm : mapGet m id with
          | none => exact absurd hm hg
          | some _ => rfl
        simpa [scanFree, hg'] using h
      cases k with
      | zero =>
        by_contra hc
        rw [← mapGet_eq_none_iff] at hc
        exact hg hc
      | succ k =>
        rw [Function.iterate_succ_apply]
        exact ih _ hs k (by omega)

theorem scanFree_some (m : List (Int × Chan)) : ∀ (fuel : Nat) (id r : Int),
    scanFree m fuel id = some r → mapGet m r = none := by
  intro fuel
  induction fuel with
  | zero =>
    intro id r h
    by_cases hg : mapGet m id = none
    · simp [scanFree, hg] at h
      rw [← h]; exact hg
    · cases hm : mapGet m id with
      | none => exact absurd hm hg
      | some _ => simp [scanFree, hm] at h
  | succ fuel ih =>
    intro id r h
    by_cases hg : mapGet m id = none
    · simp [scanFree, hg] at h
      rw [← h]; exact hg
    · cases hm : mapGet m id with
      | none => exact absurd hm hg
      | some _ =>
        simp [scanFree, hm] at h
        exact ih _ _ h

/-- The scan of `prepareMethod` finds an id when the fuel covers the size of the table and
the table does not hold every 64-bit id. -/
theorem scanFree_isSome (m : List (Int × Chan)) (fuel : Nat) (id : Int)
    (hfuel : m.length ≤ fuel) (hsize : m.length < 2 ^ 64) :
    ∃ r, scanFree m fuel id = some r := by
  cases hs : scanFree m fuel id with
  | some r => exact ⟨r, rfl⟩
  | none =>
    exfalso
    have hall := scanFree_none m fuel id hs
    have hcard : (Finset.range (m.length + 1)).card ≤ (m.map Prod.fst).toFinset.card := by
      apply Finset.card_le_card_of_injOn (fun k : Nat => (fun x => wrapInt64 (x + 1))^[k] id)
      · intro k hk
        have hk' : k < m.length + 1 := by simpa using hk
        have := hall k (by omega)
        simpa using this
      · exact iterate_wrap_injOn id m.length hsize
    have hle : (m.map Prod.fst).toFinset.card ≤ m.length := by
      have := List.toFinset_card_le (m.map Prod.fst)
      simpa using this
    rw [Finset.card_range] at hcard
    omega

/-- C1: `prepareMethod` returns (given fuel for the scan, and a table that, as every Go map,
holds fewer than 2^64 entries) an id that is not a key of the table as it was, and the table
afterwards is the old table with the one entry id -> ch put in front: looking up the id gives
ch, looking up any other key gives what it gave before. The counter moves past the id and the
other fields are kept. -/
theorem prepareMethod_fresh {Bytes : Type} (fuel : Nat) (s : Client Bytes) (ch : Chan)
    (hfuel : s.methods.length ≤ fuel) (hsize : s.methods.length < 2 ^ 64) :
    ∃ (id : Int) (s' : Client Bytes), s.prepareMethod fuel ch = some (id, s') ∧
      mapGet s.methods id = none ∧
      s'.methods = (id, ch) :: s.methods ∧
      (∀ k, mapGet s'.methods k = if k = id then some ch else mapGet s.methods k) ∧
      s'.id = wrapInt64 (id + 1) ∧ s'.listeners = s.listeners ∧ s'.conn = s.conn := by
  obtain ⟨id, hid⟩ := scanFree_isSome s.methods fuel s.id hfuel hsize
  have hfree := scanFree_some s.methods fuel s.id id hid
  refine ⟨id, { s with id := wrapInt64 (id + 1), methods := mapSet s.methods id ch },
    by simp only [Client.prepareMethod, hid], hfree, ?_, ?_, rfl, rfl, rfl⟩
  · simp [mapSet, mapDelete_of_get_none _ _ hfree]
  · intro k
    simp only [mapSet, mapDelete_of_get_none _ _ hfree, mapGet]
    by_cases hk : k = id
    · simp [hk]
    · have : ¬ id = k := fun e => hk e.symm
      simp [hk, this]

/-- A table with the pending ids 0, 1 and 3 and the counter at 0: the new call gets id 2. -/
theorem prepareMethod_fresh_witness :
    ∃ (id : Int) (s' : Client Unit),
      Client.prepareMethod 3
        ({ id := 0, methods := [(0, 10), (1, 11), (3, 13)], listeners := [],
           conn := { incoming := [], outgoing := [], closed := false } } : Client Unit) 14
        = some (id, s') ∧
      mapGet [((0 : Int), (10 : Chan)), (1, 11), (3, 13)] id = none ∧
      s'.methods = (id, 14) :: [(0, 10), (1, 11), (3, 13)] ∧
      (∀ k, mapGet s'.methods k
        = if k = id then some 14 else mapGet [((0 : Int), (10 : Chan)), (1, 11), (3, 13)] k) ∧
      s'.id = wrapInt64 (id + 1) ∧ s'.listeners = [] ∧
      s'.conn = { incoming := [], outgoing := [], closed := false } :=
  prepareMethod_fresh 3
    ({ id := 0, methods := [(0, 10), (1, 11), (3, 13)], listeners := [],
       conn := { incoming := [], outgoing := [], closed := false } } : Client Unit) 14
    (by decide) (by norm_num)

/-! ## The reader step -/

theorem oneCallWaiting_reached (script : List (Except String (Option Msg))) :
    Client.Call_begin msgCodec 0 (NewClient (scriptConn script)) "Page.enable" none
      = some (.inr (firstCall, oneCallWaiting script)) := by
  rfl

/-- C2: the reader step on a frame that carries the id A. When the table has a slot ch under
A, the step removes the entry of A and keeps every entry of another id B as it was, touches
no channel other than ch, and, ch being open with room, queues the raw frame on ch and goes
on. When the table has no entry under A, the step changes nothing and goes on. -/
theorem procDispatch_by_id {Bytes : Type} (w : World Bytes) (resbin : Bytes) (A : Int)
    (method : Option String) :
    (∀ ch, mapGet w.client.methods A = some ch →
      (∀ B, B ≠ A →
        mapGet (procDispatch w resbin { ID := some A, Method := method }).world.client.methods B
          = mapGet w.client.methods B) ∧
      mapGet (procDispatch w resbin { ID := some A, Method := method }).world.client.methods A
        = none ∧
      (∀ c, c ≠ ch →
        (procDispatch w resbin { ID := some A, Method := method }).world.heap c = w.heap c) ∧
      ((w.heap ch).closed = false → (w.heap ch).buf.length < (w.heap ch).cap →
        ∃ w', procDispatch w resbin { ID := some A, Method := method } = .returned () w' ∧
          (w'.heap ch).buf = (w.heap ch).buf ++ [resbin] ∧
          (w'.heap ch).closed = false)) ∧
    (mapGet w.client.methods A = none →
      procDispatch w resbin { ID := some A, Method := method } = .returned () w) := by
  constructor
  · intro ch hch
    have hstep : procDispatch w resbin { ID := some A, Method := method } =
        match chanSend w.heap ch resbin with
        | .sent h => .returned ()
            { w with client := { w.client with methods := mapDelete w.client.methods A },
                     heap := h }
        | .full => .blocked
            { w with client := { w.client with methods := mapDelete w.client.methods A } }
        | .closed => .panicked .sendOnClosedChannel
            { w with client := { w.client with methods := mapDelete w.client.methods A } } := by
      simp only [procDispatch, Client.cleanupMethod, hch]
    rw [hstep]
    by_cases hcl : (w.heap ch).closed = true
    · simp [chanSend, hcl, Outcome.world, mapGet_mapDelete]
      intro B hB
      simp [hB]
    · simp only [Bool.not_eq_true] at hcl
      by_cases hfull : (w.heap ch).cap ≤ (w.heap ch).buf.length
      · simp [chanSend, hcl, hfull, Outcome.world, mapGet_mapDelete]
        intro B hB
        simp [hB]
      · simp [chanSend, hcl, hfull, Outcome.world, mapGet_mapDelete]
        refine ⟨fun B hB => by simp [hB], fun c hc => by simp [Function.update, hc]⟩
  · intro hnone
    simp [procDispatch, Client.cleanupMethod, hnone]

/-- The reader step with the calls 0 and 1 pending and a response for id 1 arriving: the
frame is queued on the channel of call 1 alone and the entry of call 0 stays. -/
theorem procDispatch_example :
    ∃ w', procDispatch
        { oneCallWaiting [] with
          client := { (oneCallWaiting []).client with methods := [(0, 0), (1, 1)] }
          heap := Function.update (oneCallWaiting []).heap 1
            { closed := false, cap := 1, buf := [] } }
        (some { id := some 1, method := none, result := some 5, error := none })
        { ID := some 1, Method := none } = .returned () w' ∧
      w'.client.methods = [(0, 0)] ∧
      (w'.heap 1).buf = [some { id := some 1, method := none, result := some 5, error := none }] ∧
      (w'.heap 0).buf = [] :=
  ⟨_, rfl, by decide, by decide, by decide⟩

/-! ## The reader task on a frame that does not parse, and on a failed receive -/

/-- C9, as the claim states it, fails: call 0 waits, a frame that is not JSON arrives and then
the response for call 0. `proc` returns the decoding error at the first frame; the response is
never received, the slot of call 0 stays empty and its entry stays in the table. -/
theorem proc_stops_at_unparsable_frame :
    ∃ w', Client.proc msgCodec
        (oneCallWaiting [.ok none,
          .ok (some { id := some 0, method := none, result := some 5, error := none })])
        = .returned (.unmarshal "invalid character") w' ∧
      w'.client.conn.incoming =
        [.ok (some { id := some 0, method := none, result := some 5, error := none })] ∧
      (w'.heap 0).buf = [] ∧
      w'.client.methods = [(0, 0)] :=
  ⟨_, rfl, rfl, rfl, rfl⟩

/-- C9, amended: when the frame received next cannot be decoded into the envelope, `proc`
returns the decoding error right there: the frame was handed to the tracer, the pending-call
table, the hub table and every channel are unchanged, and the frames after it are not
received. -/
theorem proc_returns_decode_error {Bytes Value : Type} (codec : Codec Bytes Value)
    (w : World Bytes) (resbin : Bytes) (rest : List (Except String Bytes)) (e : String)
    (hopen : w.client.conn.closed = false)
    (hnext : w.client.conn.incoming = .ok resbin :: rest)
    (hbad : codec.unmarshalEnvelope resbin = .error e) :
    ∃ w', Client.proc codec w = .returned (.unmarshal e) w' ∧
      w'.client.methods = w.client.methods ∧
      w'.client.listeners = w.client.listeners ∧
      w'.client.id = w.client.id ∧
      w'.heap = w.heap ∧
      w'.traced = w.traced ++ [.inl resbin] ∧
      w'.client.conn.incoming = rest := by
  refine ⟨{ w with
      client := { w.client with conn := { w.client.conn with incoming := rest } }
      traced := w.traced ++ [.inl resbin] }, ?_, rfl, rfl, rfl, rfl, rfl, rfl⟩
  simp [Client.proc, hopen, hnext, procLoop, hbad]

/-- The amended C9 on the world of the counterexample. -/
theorem proc_returns_decode_error_witness :
    ∃ w', Client.proc msgCodec
        (oneCallWaiting [.ok none,
          .ok (some { id := some 0, method := none, result := some 5, error := none })])
        = .returned (.unmarshal "invalid character") w' ∧
      w'.client.methods = [(0, 0)] ∧
      w'.client.listeners = [] ∧
      w'.client.id = wrapInt64 (0 + 1) ∧
      w'.heap = (oneCallWaiting [.ok none,
          .ok (some { id := some 0, method := none, result := some 5, error := none })]).heap ∧
      w'.traced = [] ++ [.inl none] ∧
      w'.client.conn.incoming =
        [.ok (some { id := some 0, method := none, result := some 5, error := none })] :=
  proc_returns_decode_error msgCodec
    (oneCallWaiting [.ok none,
      .ok (some { id := some 0, method := none, result := some 5, error := none })])
    none [.ok (some { id := some 0, method := none, result := some 5, error := none })]
    "invalid character" rfl rfl rfl

/-- C8: call 0 waits and the receive fails. The reader task ends, having handed the error to
the tracer, and the call is left as it was: its entry is still in the table, its channel is
open and empty, and waking the call on its channel leaves it waiting. -/
theorem readerTask_leaves_call_waiting :
    ∃ w', readerTask msgCodec (oneCallWaiting [.error "EOF"]) = .returned () w' ∧
      w'.traced = [.inr (.transport "EOF")] ∧
      mapGet w'.client.methods 0 = some 0 ∧
      (w'.heap 0).closed = false ∧
      (w'.heap 0).buf = [] ∧
      Client.Call_wake msgCodec w' firstCall none .recv = .blocked w' :=
  ⟨_, rfl, rfl, rfl, rfl, rfl, rfl⟩

/-- For every world: when the receive fails, `proc` returns the error and changes neither
table nor any channel. -/
theorem proc_receive_error_keeps_tables {Bytes Value : Type} (codec : Codec Bytes Value)
    (w : World Bytes) (rest : List (Except String Bytes)) (e : String)
    (hopen : w.client.conn.closed = false)
    (hnext : w.client.conn.incoming = .error e :: rest) :
    ∃ w', Client.proc codec w = .returned (.transport e) w' ∧
      w'.client.methods = w.client.methods ∧
      w'.client.listeners = w.client.listeners ∧
      w'.heap = w.heap := by
  refine ⟨{ w with
      client := { w.client with conn := { w.client.conn with incoming := rest } } },
    ?_, rfl, rfl, rfl⟩
  simp [Client.proc, hopen, hnext, procLoop]

/-! ## `Close` while a call waits -/

/-- C7: call 0 waits and `Close` runs. `Close` returns, having closed channel 0 and cleared
the table; the call wakes on its closed channel, and its deferred `close(ch)` closes channel 0
a second time: the call panics. -/
theorem Close_then_Call_panics :
    ∃ w1 w2, Client.Close (oneCallWaiting []) = .returned none w1 ∧
      w1.client.methods = [] ∧
      (w1.heap 0).closed = true ∧
      Client.Call_wake msgCodec w1 firstCall none .recv
        = .panicked .closeOfClosedChannel w2 :=
  ⟨_, _, rfl, rfl, rfl, rfl⟩

theorem closeAll_closed {Bytes : Type} : ∀ (chans : List Chan) (h h' : Heap Bytes),
    closeAll h chans = (h', none) →
    (∀ c, (h c).closed = true → (h' c).closed = true) ∧
    (∀ c ∈ chans, (h' c).closed = true) := by
  intro chans
  induction chans with
  | nil =>
    intro h h' hc
    simp only [closeAll, Prod.mk.injEq, and_true] at hc
    subst hc
    simp
  | cons ch rest ih =>
    intro h h' hc
    by_cases hcl : (h ch).closed = true
    · simp [closeAll, chanClose, hcl] at hc
    · simp only [closeAll, chanClose, hcl, Bool.false_eq_true, if_false] at hc
      obtain ⟨hkeep, hall⟩ := ih _ _ hc
      have hup : ∀ c, (h c).closed = true →
          ((Function.update h ch { h ch with closed := true }) c).closed = true := by
        intro c hcc
        by_cases hce : c = ch
        · subst hce; simp
        · simp [Function.update, hce, hcc]
      refine ⟨fun c hcc => hkeep c (hup c hcc), ?_⟩
      intro c hmem
      rcases List.mem_cons.mp hmem with hce | hin
      · subst hce
        exact hkeep c (by simp)
      · exact hall c hin

theorem mapGet_some_mem {ν : Type} (m : List (Int × ν)) (k : Int) (v : ν)
    (h : mapGet m k = some v) : v ∈ m.map Prod.snd := by
  induction m with
  | nil => simp [mapGet] at h
  | cons e rest ih =>
    obtain ⟨k', v'⟩ := e
    by_cases hk : k' = k
    · simp [mapGet, hk] at h
      simp [h]
    · simp only [mapGet, hk, if_false] at h
      simp [ih h]

theorem callDefers_on_closed {Bytes : Type} (w : World Bytes) (id : Int) (ch : Chan)
    (ret : Option GoError) (h : (w.heap ch).closed = true) :
    callDefers w id ch ret
      = .panicked .closeOfClosedChannel { w with client := (w.client.cleanupMethod id).2 } := by
  simp [callDefers, chanClose, h]

/-- For every world in which a call waits on a registered channel: once `Close` has returned,
the call, whichever case of its `select` wakes it, panics in its deferred `close(ch)`. -/
theorem Call_after_Close_panics {Bytes Value : Type} (codec : Codec Bytes Value)
    (w w1 : World Bytes) (p : Pending) (result : Option Value) (wake : Wake)
    (r : Option GoError)
    (hreg : mapGet w.client.methods p.id = some p.ch)
    (hclose : Client.Close w = .returned r w1) :
    ∃ w2, Client.Call_wake codec w1 p result wake = .panicked .closeOfClosedChannel w2 := by
  have hmem := mapGet_some_mem _ _ _ hreg
  have hclosed : (w1.heap p.ch).closed = true := by
    unfold Client.Close at hclose
    rcases h1 : closeAll w.heap (w.client.methods.map Prod.snd) with ⟨h1h, _ | f⟩
    · rw [h1] at hclose
      simp only at hclose
      rcases h2 : closeAll h1h (w.client.listeners.map Prod.snd) with ⟨h2h, _ | f⟩
      · rw [h2] at hclose
        simp only [Outcome.returned.injEq] at hclose
        obtain ⟨_, hw⟩ := hclose
        rw [← hw]
        exact (closeAll_closed _ _ _ h2).1 _ ((closeAll_closed _ _ _ h1).2 _ hmem)
      · rw [h2] at hclose
        simp at hclose
    · rw [h1] at hclose
      simp at hclose
  cases wake with
  | ctxDone msg => exact ⟨_, callDefers_on_closed _ _ _ _ hclosed⟩
  | recv =>
    cases hbuf : (w1.heap p.ch).buf with
    | nil =>
      have hstep : Client.Call_wake codec w1 p result .recv
          = callDefers w1 p.id p.ch (some .channelClosed) := by
        simp only [Client.Call_wake, hbuf, hclosed, if_true]
      exact ⟨_, hstep.trans (callDefers_on_closed _ _ _ _ hclosed)⟩
    | cons resbin rest =>
      have hstep : Client.Call_wake codec w1 p result .recv
          = callDefers
              { w1 with heap := Function.update w1.heap p.ch { w1.heap p.ch with buf := rest } }
              p.id p.ch (callResult codec result resbin) := by
        simp only [Client.Call_wake, hbuf]
      exact ⟨_, hstep.trans (callDefers_on_closed _ _ _ _ (by simp [hclosed]))⟩

/-- Once `Close` has returned, both tables are empty and a second `Close` returns as well. -/
theorem Close_twice_returns {Bytes : Type} (w w1 : World Bytes) (r : Option GoError)
    (hclose : Client.Close w = .returned r w1) :
    w1.client.methods = [] ∧ w1.client.listeners = [] ∧
    ∃ r' w2, Client.Close w1 = .returned r' w2 := by
  have hw : w1.client.methods = [] ∧ w1.client.listeners = [] := by
    unfold Client.Close at hclose
    rcases h1 : closeAll w.heap (w.client.methods.map Prod.snd) with ⟨h1h, _ | f⟩
    · rw [h1] at hclose
      simp only at hclose
      rcases h2 : closeAll h1h (w.client.listeners.map Prod.snd) with ⟨h2h, _ | f⟩
      · rw [h2] at hclose
        simp only [Outcome.returned.injEq] at hclose
        obtain ⟨_, hw⟩ := hclose
        rw [← hw]
        exact ⟨rfl, rfl⟩
      · rw [h2] at hclose
        simp at hclose
    · rw [h1] at hclose
      simp at hclose
  refine ⟨hw.1, hw.2, ?_⟩
  simp [Client.Close, hw.1, hw.2, closeAll]

/-! ## The response of a call -/

/-- C6, as the claim states it, fails for an absent result target: call 0 was made with a nil
result, the reader task delivers a response that carries the error object with code 7 and
message x, and the call returns nil. -/
theorem Call_nil_result_returns_nil_on_error :
    ∃ w1 w2 res, Client.proc msgCodec (oneCallWaiting [.ok errorFrame]) = .blocked w1 ∧
      (w1.heap 0).buf = [errorFrame] ∧
      msgCodec.unmarshalResponse errorFrame 0 = .ok res ∧
      res.Error = some { Code := 7, Message := "x" } ∧
      Client.Call_wake msgCodec w1 firstCall none .recv = .returned none w2 :=
  ⟨_, _, _, rfl, rfl, rfl, rfl, rfl⟩

/-- C6, amended: for a call with a result target, waiting on its open channel, when the frame
delivered decodes into a response that carries an error object, `Call` returns that very
object as its error; its entry is out of the table and its channel is closed. -/
theorem Call_returns_remote_error {Bytes Value : Type} (codec : Codec Bytes Value)
    (w : World Bytes) (p : Pending) (target : Value) (resbin : Bytes) (rest : List Bytes)
    (res : CallResponse Value) (e : Error)
    (hbuf : (w.heap p.ch).buf = resbin :: rest)
    (hopen : (w.heap p.ch).closed = false)
    (hdec : codec.unmarshalResponse resbin target = .ok res)
    (herr : res.Error = some e) :
    ∃ w', Client.Call_wake codec w p (some target) .recv = .returned (some (.remote e)) w' ∧
      mapGet w'.client.methods p.id = none ∧
      (w'.heap p.ch).closed = true := by
  have hres : callResult codec (some target) resbin = some (.remote e) := by
    simp [callResult, hdec, herr]
  have hstep : Client.Call_wake codec w p (some target) .recv
      = callDefers
          { w with heap := Function.update w.heap p.ch { w.heap p.ch with buf := rest } }
          p.id p.ch (some (.remote e)) := by
    simp only [Client.Call_wake, hbuf, hres]
  rw [hstep]
  refine ⟨{ w with
      client := (w.client.cleanupMethod p.id).2
      heap := Function.update
        (Function.update w.heap p.ch { w.heap p.ch with buf := rest }) p.ch
        { closed := true, cap := (w.heap p.ch).cap, buf := rest } }, ?_, ?_, ?_⟩
  · simp [callDefers, chanClose, hopen]
  · simp only [Client.cleanupMethod]
    cases hg : mapGet w.client.methods p.id with
    | none => simpa using hg
    | some ch => simp [mapGet_mapDelete]
  · simp

/-- The amended C6 on the world in which `errorFrame` was delivered to call 0, now made with
a result target. -/
theorem Call_returns_remote_error_witness :
    ∃ w', Client.Call_wake msgCodec errorDelivered firstCall (some 0) .recv
        = .returned (some (.remote { Code := 7, Message := "x" })) w' ∧
      mapGet w'.client.methods firstCall.id = none ∧
      (w'.heap firstCall.ch).closed = true :=
  Call_returns_remote_error msgCodec errorDelivered firstCall 0 errorFrame []
    { Result := none, Error := some { Code := 7, Message := "x" } } { Code := 7, Message := "x" }
    rfl rfl rfl rfl

/-! ## `Batch` -/

theorem build_fold {Value : Type} : ∀ (ds : List (Decl Value)) (s : Batch Value),
    ((ds.foldl Batch.declare s).prepares.map PrepareFn.op : List (Op Value))
      = s.prepares.map PrepareFn.op ++ declaredListens s.prepares.length ds ∧
    (ds.foldl Batch.declare s).runs.map RunFn.op
      = s.runs.map RunFn.op ++ declaredSteps s.prepares.length ds ∧
    ((ds.foldl Batch.declare s).cleanups.map CleanupFn.op : List (Op Value))
      = s.cleanups.map CleanupFn.op
        ++ (List.range' s.prepares.length (countListens ds)).map Op.canceler := by
  intro ds
  induction ds with
  | nil => intro s; simp [declaredListens, declaredSteps, countListens]
  | cons d ds ih =>
    intro s
    cases d with
    | Call method params result =>
      obtain ⟨h1, h2, h3⟩ := ih (s.Call method params result)
      refine ⟨?_, ?_, ?_⟩
      · simpa [Batch.declare, Batch.Call, declaredListens] using h1
      · simpa [Batch.declare, Batch.Call, declaredSteps, RunFn.op] using h2
      · simpa [Batch.declare, Batch.Call, countListens] using h3
    | Listen method params =>
      obtain ⟨h1, h2, h3⟩ := ih (s.Listen method params)
      refine ⟨?_, ?_, ?_⟩
      · simpa [Batch.declare, Batch.Listen, declaredListens, PrepareFn.op] using h1
      · simpa [Batch.declare, Batch.Listen, declaredSteps, RunFn.op] using h2
      · simpa [Batch.declare, Batch.Listen, countListens, CleanupFn.op, List.range'_succ]
          using h3

theorem build_ops {Value : Type} (ds : List (Decl Value)) :
    ((Batch.build ds).prepares.map PrepareFn.op : List (Op Value)) = declaredListens 0 ds ∧
    (Batch.build ds).runs.map RunFn.op = declaredSteps 0 ds ∧
    ((Batch.build ds).cleanups.map CleanupFn.op : List (Op Value))
      = (List.range (countListens ds)).map Op.canceler := by
  have h := build_fold ds (Batch.empty : Batch Value)
  simpa [Batch.build, Batch.empty, List.range_eq_range'] using h

theorem runLoop_spec {Value : Type} (env : Env Value) :
    ∀ (fns : List (RunFn Value)) (tr : List (Op Value)),
    ∃ n, n ≤ fns.length ∧
      (runLoop env fns tr).1 = tr ++ (fns.map RunFn.op).take n ∧
      (∀ i, i + 1 < n → env (tr ++ (fns.map RunFn.op).take (i + 1)) = none) ∧
      ((runLoop env fns tr).2 ≠ none →
        0 < n ∧ env (tr ++ (fns.map RunFn.op).take n) = (runLoop env fns tr).2) ∧
      ((runLoop env fns tr).2 = none →
        n = fns.length ∧ ∀ i, i < n → env (tr ++ (fns.map RunFn.op).take (i + 1)) = none) := by
  intro fns
  induction fns with
  | nil =>
    intro tr
    exact ⟨0, by simp, by simp [runLoop], by intro i hi; omega, by simp [runLoop],
      by simp [runLoop]⟩
  | cons fn rest ih =>
    intro tr
    cases henv : env (tr ++ [fn.op]) with
    | some err =>
      refine ⟨1, by simp, by simp [runLoop, henv], by intro i hi; omega, ?_, ?_⟩
      · intro _
        simp [runLoop, henv]
      · intro h
        simp [runLoop, henv] at h
    | none =>
      obtain ⟨n, hn, htr, hmid, herr, hok⟩ := ih (tr ++ [fn.op])
      have hrun : runLoop env (fn :: rest) tr = runLoop env rest (tr ++ [fn.op]) := by
        simp [runLoop, henv]
      have htake : ∀ k, tr ++ ((fn :: rest).map RunFn.op).take (k + 1)
          = (tr ++ [fn.op]) ++ (rest.map RunFn.op).take k := by
        intro k
        simp
      refine ⟨n + 1, by simpa using hn, ?_, ?_, ?_, ?_⟩
      · rw [hrun, htr, htake]
      · intro i hi
        cases i with
        | zero => simpa using henv
        | succ j =>
          rw [htake]
          exact hmid j (by omega)
      · intro h
        rw [hrun] at h ⊢
        rw [htake]
        exact ⟨by omega, (herr h).2⟩
      · intro h
        rw [hrun] at h
        obtain ⟨hlen, hall⟩ := hok h
        refine ⟨by simp [hlen], ?_⟩
        intro i hi
        cases i with
        | zero => simpa using henv
        | succ j =>
          rw [htake]
          exact hall j (by omega)

theorem declaredListens_isListen {Value : Type} : ∀ (ds : List (Decl Value)) (n : Nat),
    ∀ op ∈ declaredListens n ds, op.isListen = true ∧ op.isStep = false ∧ op.isCanceler = false := by
  intro ds
  induction ds with
  | nil => intro n op h; simp [declaredListens] at h
  | cons d ds ih =>
    intro n op h
    cases d with
    | Call method params result => exact ih n op (by simpa [declaredListens] using h)
    | Listen method params =>
      simp only [declaredListens, List.mem_cons] at h
      rcases h with h | h
      · subst h; simp [Op.isListen, Op.isStep, Op.isCanceler]
      · exact ih _ op h

theorem declaredSteps_isStep {Value : Type} : ∀ (ds : List (Decl Value)) (n : Nat),
    ∀ op ∈ declaredSteps n ds, op.isStep = true ∧ op.isListen = false ∧ op.isCanceler = false := by
  intro ds
  induction ds with
  | nil => intro n op h; simp [declaredSteps] at h
  | cons d ds ih =>
    intro n op h
    cases d with
    | Call method params result =>
      simp only [declaredSteps, List.mem_cons] at h
      rcases h with h | h
      · subst h; simp [Op.isListen, Op.isStep, Op.isCanceler]
      · exact ih _ op h
    | Listen method params =>
      simp only [declaredSteps, List.mem_cons] at h
      rcases h with h | h
      · subst h; simp [Op.isListen, Op.isStep, Op.isCanceler]
      · exact ih _ op h

theorem declaredListens_length {Value : Type} : ∀ (ds : List (Decl Value)) (n : Nat),
    (declaredListens n ds).length = countListens ds := by
  intro ds
  induction ds with
  | nil => intro n; rfl
  | cons d ds ih =>
    intro n
    cases d with
    | Call method params result => simpa [declaredListens, countListens] using ih n
    | Listen method params => simpa [declaredListens, countListens] using ih (n + 1)

/-- The shape of every run: the subscriptions, then an initial segment of the declared steps,
then the cancelers; with what the environment returned for the steps. -/
theorem Run_shape {Value : Type} (env : Env Value) (ds : List (Decl Value)) :
    ∃ n, n ≤ (declaredSteps 0 ds).length ∧
      (Batch.Run env (Batch.build ds)).1
        = declaredListens 0 ds ++ (declaredSteps 0 ds).take n
          ++ (List.range (countListens ds)).map Op.canceler ∧
      (∀ i, i + 1 < n → env (declaredListens 0 ds ++ (declaredSteps 0 ds).take (i + 1)) = none) ∧
      ((Batch.Run env (Batch.build ds)).2 ≠ none →
        0 < n ∧ env (declaredListens 0 ds ++ (declaredSteps 0 ds).take n)
          = (Batch.Run env (Batch.build ds)).2) ∧
      ((Batch.Run env (Batch.build ds)).2 = none →
        n = (declaredSteps 0 ds).length ∧
        ∀ i, i < n → env (declaredListens 0 ds ++ (declaredSteps 0 ds).take (i + 1)) = none) := by
  obtain ⟨hp, hr, hc⟩ := build_ops ds
  obtain ⟨n, hn, htr, hmid, herr, hok⟩ :=
    runLoop_spec env (Batch.build ds).runs ((Batch.build ds).prepares.map PrepareFn.op)
  rw [hp, hr] at htr hmid herr hok
  have hlen : (Batch.build ds).runs.length = (declaredSteps 0 ds).length := by
    rw [← hr, List.length_map]
  rw [hlen] at hn hok
  refine ⟨n, hn, ?_, hmid, ?_, ?_⟩
  · simp only [Batch.Run, hp, hc, htr]
  · simpa only [Batch.Run, hp] using herr
  · simpa only [Batch.Run, hp] using hok

theorem declaredListens_slot {Value : Type} : ∀ (ds : List (Decl Value)) (n k : Nat),
    (∃ m, Op.Listen m k ∈ declaredListens n ds) ↔ n ≤ k ∧ k < n + countListens ds := by
  intro ds
  induction ds with
  | nil => intro n k; simp [declaredListens, countListens]
  | cons d ds ih =>
    intro n k
    cases d with
    | Call method params result => simpa [declaredListens, countListens] using ih n k
    | Listen method params =>
      simp only [declaredListens, countListens, List.mem_cons, Op.Listen.injEq]
      constructor
      · rintro ⟨m, h | h⟩
        · omega
        · have := (ih (n + 1) k).mp ⟨m, h⟩
          omega
      · intro h
        by_cases hk : k = n
        · exact ⟨method, Or.inl ⟨rfl, hk⟩⟩
        · obtain ⟨m, hm⟩ := (ih (n + 1) k).mpr (by omega)
          exact ⟨m, Or.inr hm⟩

theorem canceler_count_range {Value : Type} [DecidableEq Value] (n k : Nat) (h : k < n) :
    ((List.range n).map (Op.canceler : Nat → Op Value)).count (.canceler k) = 1 := by
  apply List.count_eq_one_of_mem
  · refine (List.nodup_range n).map ?_
    intro a b hab
    simpa using hab
  · exact List.mem_map.mpr ⟨k, List.mem_range.mpr h, rfl⟩

/-- C3: for the batch built by any sequence of declarations and any behaviour of the client,
the trace of `Run` starts with the `Client.Listen` of every listen declaration, in declaration
order, and no `Client.Listen` comes later: every `Client.Listen` of the trace stands before
every `Client.Call` and every call of a listener. -/
theorem Run_subscribes_before_steps {Value : Type} (env : Env Value) (ds : List (Decl Value)) :
    ∃ rest, (Batch.Run env (Batch.build ds)).1 = declaredListens 0 ds ++ rest ∧
      (declaredListens 0 ds).length = countListens ds ∧
      (∀ op ∈ declaredListens 0 ds, op.isListen = true) ∧
      (∀ op ∈ rest, op.isListen = false) ∧
      (∀ (i j : Nat) (a b : Op Value), (Batch.Run env (Batch.build ds)).1[i]? = some a →
        (Batch.Run env (Batch.build ds)).1[j]? = some b →
        a.isListen = true → b.isStep = true → i < j) := by
  obtain ⟨n, _, htr, _, _, _⟩ := Run_shape env ds
  have hL := declaredListens_isListen ds 0
  have hrest : ∀ op ∈ (declaredSteps 0 ds).take n
      ++ (List.range (countListens ds)).map (Op.canceler : Nat → Op Value),
      op.isListen = false := by
    intro op hop
    rcases List.mem_append.mp hop with h | h
    · exact (declaredSteps_isStep ds 0 op (List.mem_of_mem_take h)).2.1
    · obtain ⟨k, _, hk⟩ := List.mem_map.mp h
      subst hk
      rfl
  rw [List.append_assoc] at htr
  refine ⟨_, htr, declaredListens_length ds 0, fun op h => (hL op h).1, hrest, ?_⟩
  intro i j a b hi hj ha hb
  rw [htr] at hi hj
  by_contra hij
  by_cases hjL : j < (declaredListens 0 ds).length
  · rw [List.getElem?_append_left hjL] at hj
    have := (hL b (List.getElem?_mem hj)).2.1
    rw [this] at hb
    exact Bool.false_ne_true hb
  · rw [List.getElem?_append_right (by omega)] at hi
    have := hrest a (List.getElem?_mem hi)
    rw [this] at ha
    exact Bool.false_ne_true ha

/-- C4: for the batch built by any sequence of declarations and any behaviour of the client,
the steps `Run` executes are the first n declared steps, in declaration order; every executed
step but the last returned no error; when `Run` returns an error it is the error the last
executed step returned; and `Run` returns no error exactly when every declared step ran and
returned no error. -/
theorem Run_stops_at_first_error {Value : Type} (env : Env Value) (ds : List (Decl Value)) :
    ∃ n, n ≤ (declaredSteps 0 ds).length ∧
      (Batch.Run env (Batch.build ds)).1.filter Op.isStep = (declaredSteps 0 ds).take n ∧
      (∀ i, i + 1 < n → env (declaredListens 0 ds ++ (declaredSteps 0 ds).take (i + 1)) = none) ∧
      ((Batch.Run env (Batch.build ds)).2 ≠ none →
        0 < n ∧ env (declaredListens 0 ds ++ (declaredSteps 0 ds).take n)
          = (Batch.Run env (Batch.build ds)).2) ∧
      ((Batch.Run env (Batch.build ds)).2 = none ↔
        n = (declaredSteps 0 ds).length ∧
        ∀ i, i < (declaredSteps 0 ds).length →
          env (declaredListens 0 ds ++ (declaredSteps 0 ds).take (i + 1)) = none) := by
  obtain ⟨n, hn, htr, hmid, herr, hok⟩ := Run_shape env ds
  refine ⟨n, hn, ?_, hmid, herr, ?_⟩
  · rw [htr, List.filter_append, List.filter_append]
    have h1 : (declaredListens 0 ds).filter Op.isStep = [] := by
      rw [List.filter_eq_nil_iff]
      intro op hop
      simp [(declaredListens_isListen ds 0 op hop).2.1]
    have h2 : ((declaredSteps 0 ds).take n).filter Op.isStep = (declaredSteps 0 ds).take n := by
      rw [List.filter_eq_self]
      intro op hop
      exact (declaredSteps_isStep ds 0 op (List.mem_of_mem_take hop)).1
    have h3 : ((List.range (countListens ds)).map (Op.canceler : Nat → Op Value)).filter
        Op.isStep = [] := by
      rw [List.filter_eq_nil_iff]
      intro op hop
      obtain ⟨k, _, hk⟩ := List.mem_map.mp hop
      subst hk
      simp [Op.isStep]
    rw [h1, h2, h3]
    simp
  · constructor
    · intro h
      obtain ⟨hlen, hall⟩ := hok h
      exact ⟨hlen, fun i hi => hall i (by omega)⟩
    · rintro ⟨hlen, hall⟩
      by_contra hne
      obtain ⟨hpos, hlast⟩ := herr hne
      have := hall (n - 1) (by omega)
      rw [show n - 1 + 1 = n by omega, hlast] at this
      exact hne this

/-- C5: for the batch built by any sequence of declarations and any behaviour of the client
(so whichever step fails, or none), the trace of `Run` ends with the cancelers of all listen
declarations, after the last executed step; no canceler is called earlier; and the canceler
of every slot a listen declaration subscribed is called exactly once. -/
theorem Run_cancels_every_listen {Value : Type} [DecidableEq Value] (env : Env Value)
    (ds : List (Decl Value)) :
    ∃ n, (Batch.Run env (Batch.build ds)).1
        = (declaredListens 0 ds ++ (declaredSteps 0 ds).take n)
          ++ (List.range (countListens ds)).map Op.canceler ∧
      (∀ op ∈ declaredListens 0 ds ++ (declaredSteps 0 ds).take n, op.isCanceler = false) ∧
      (∀ m k, Op.Listen m k ∈ declaredListens 0 ds →
        (Batch.Run env (Batch.build ds)).1.count (.canceler k) = 1) ∧
      (∀ k, (Batch.Run env (Batch.build ds)).1.count (.canceler k)
        = if k < countListens ds then 1 else 0) := by
  obtain ⟨n, _, htr, _, _, _⟩ := Run_shape env ds
  have hfront : ∀ op ∈ declaredListens 0 ds ++ (declaredSteps 0 ds).take n,
      op.isCanceler = false := by
    intro op hop
    rcases List.mem_append.mp hop with h | h
    · exact (declaredListens_isListen ds 0 op h).2.2
    · exact (declaredSteps_isStep ds 0 op (List.mem_of_mem_take h)).2.2
  have hcount : ∀ k, (Batch.Run env (Batch.build ds)).1.count (.canceler k)
      = if k < countListens ds then 1 else 0 := by
    intro k
    rw [htr, List.count_append]
    have h0 : (declaredListens 0 ds ++ (declaredSteps 0 ds).take n).count (.canceler k) = 0 := by
      apply List.count_eq_zero_of_not_mem
      intro hmem
      have := hfront _ hmem
      simp [Op.isCanceler] at this
    rw [h0]
    by_cases hk : k < countListens ds
    · simp [hk, canceler_count_range (countListens ds) k hk]
    · simp only [hk, if_false, Nat.zero_add]
      apply List.count_eq_zero_of_not_mem
      intro hmem
      obtain ⟨j, hj, hjk⟩ := List.mem_map.mp hmem
      have : j = k := by simpa using hjk
      rw [List.mem_range] at hj
      omega
  refine ⟨n, htr, hfront, ?_, hcount⟩
  intro m k hmem
  have hk := (declaredListens_slot ds 0 k).mp ⟨m, hmem⟩
  rw [hcount k]
  simp only [Nat.zero_add] at hk
  simp [hk.2]

/-- A run of three declarations, a call, a listen and a call, in which the listener fails:
the subscription comes first, the last call does not run, the canceler runs, and the error
of the listener is returned. -/
theorem Run_example :
    Batch.Run
      (fun tr => if tr.getLast? = some (.listener 0 none) then some .channelClosed else none)
      (Batch.build [Decl.Call "Page.navigate" (some 1) none,
        Decl.Listen "Page.loadEventFired" none,
        Decl.Call "DOM.getDocument" none (some 2)])
    = ([Op.Listen "Page.loadEventFired" 0, Op.Call "Page.navigate" (some 1) none,
        Op.listener 0 none, Op.canceler 0], some GoError.channelClosed) := by
  decide

end Rawcdp
